import Mathlib

/-!
Verification of the azst path-resolution and listing engine.

Rust strings are modelled as `List Char` (the inputs relevant to the
claims are ASCII, where Rust's byte-oriented `len`/slicing coincides with
the character count).  Fallible Rust functions returning
`anyhow::Result` are modelled with `Option` (the only error produced by
the modelled functions is the `InvalidUri` class, so `none` stands for
that error).
-/

namespace Azst

abbrev Str := List Char

def str (s : String) : Str := s.data

/-- Rust `str::find`-style break at the first occurrence of `sep`:
`none` if absent, otherwise the parts strictly before and after it. -/
def breakAtChar (sep : Char) : Str → Option (Str × Str)
  | [] => none
  | c :: cs =>
      if c = sep then some ([], cs)
      else (breakAtChar sep cs).map (fun p => (c :: p.1, p.2))

/-- Rust `str::split(sep)` collected to a list (always non-empty). -/
def splitChar (sep : Char) : Str → List Str
  | [] => [[]]
  | c :: cs =>
      if c = sep then [] :: splitChar sep cs
      else
        match splitChar sep cs with
        | [] => [[c]]
        | t :: ts => (c :: t) :: ts

/-- Rust `str::splitn(n, sep)` collected to a list: at most `n` parts,
the last part being the unsplit remainder. -/
def splitN (sep : Char) : Nat → Str → List Str
  | 0, _ => []
  | 1, s => [s]
  | n + 2, s =>
      match breakAtChar sep s with
      | none => [s]
      | some (a, b) => a :: splitN sep (n + 1) b

/-- Rust `[&str]::join(sep)`. -/
def joinChar (sep : Char) : List Str → Str
  | [] => []
  | [s] => s
  | s :: t :: ts => s ++ sep :: joinChar sep (t :: ts)

/-- Rust `str::contains(needle)` (substring containment). -/
def containsSeq (needle : Str) : Str → Bool
  | [] => needle.isEmpty
  | c :: cs => needle.isPrefixOf (c :: cs) || containsSeq needle cs

/-- Rust `str::ends_with(c)`. -/
def endsWithChar (c : Char) (s : Str) : Bool := s.getLast? == some c

/-- One character of a valid storage-account name:
`c.is_ascii_lowercase() || c.is_ascii_digit()` from `utils.rs`. -/
def isAcctChar (c : Char) : Bool :=
  ('a' ≤ c && c ≤ 'z') || ('0' ≤ c && c ≤ '9')

/-- `utils.rs::is_storage_account_name`: 3–24 chars, lowercase ASCII
letters and digits only. -/
def is_storage_account_name (s : Str) : Bool :=
  decide (3 ≤ s.length) && decide (s.length ≤ 24) && s.all isAcctChar

/-- `utils.rs::parse_azure_uri`: parse `az://…` into
(storage_account, container, blob_path); `none` is the `InvalidUri`
error. -/
def parse_azure_uri (uri : Str) : Option (Option Str × Str × Option Str) :=
  if (str "az://").isPrefixOf uri then
    match splitN '/' 3 (uri.drop 5) with
    | [] => none
    | p0 :: rest =>
      if p0 = [] then none
      else
        match rest with
        | [] =>
            if is_storage_account_name p0 then some (some p0, [], none)
            else some (none, p0, none)
        | [p1] =>
            if is_storage_account_name p0 then some (some p0, p1, none)
            else some (none, p0, if p1 = [] then none else some p1)
        | [p1, p2] =>
            if is_storage_account_name p0 then
              some (some p0, p1, if p2 = [] then none else some p2)
            else some (none, p0, some (p1 ++ '/' :: p2))
        | _ => none
  else none

/-- `azure.rs::convert_az_uri_to_url`: converts `az://account/container/[path]`
to an HTTPS URL, treating the first segment as the account
unconditionally; `none` is the error case. -/
def convert_az_uri_to_url (az_uri : Str) : Option Str :=
  if (str "az://").isPrefixOf az_uri then
    match splitN '/' 3 (az_uri.drop 5) with
    | [a, b] =>
        some (str "https://" ++ a ++ str ".blob.core.windows.net/" ++ b)
    | [a, b, c] =>
        some (str "https://" ++ a ++ str ".blob.core.windows.net/" ++ b ++ '/' :: c)
    | _ => none
  else none

/-- `commands/ls.rs::pattern_depth`: `none` for patterns containing `**`,
otherwise the number of non-empty `/`-separated segments. -/
def pattern_depth (p : Str) : Option Nat :=
  if containsSeq (str "**") p then none
  else some (((splitChar '/' p).filter (fun s => !s.isEmpty)).length)

/-- Modelled from the spec: `contains_recursive_wildcard` is imported by
`commands/ls.rs` from `utils` but its definition is not among the
sources; per the spec it is true iff the pattern contains the recursive
marker `**`. -/
def contains_recursive_wildcard (p : Str) : Bool := containsSeq (str "**") p

/-- Modelled from the spec: `split_wildcard_path` is imported by
`commands/ls.rs` from `utils` but its definition is not among the
sources; per the spec it scans the path for the first wildcard (`*` or
`?`) and, if one is found, returns the literal part up to and including
the last `/` strictly before the wildcard together with the remaining
glob pattern; `none` when the path has no wildcard. -/
def split_wildcard_path (path : Str) : Option (Str × Str) :=
  match path.findIdx? (fun c => c = '*' || c = '?') with
  | none => none
  | some i =>
      let cut := i - ((path.take i).reverse.takeWhile (fun c => c != '/')).length
      some (path.take cut, path.drop cut)

/-- One unfolding step of the spec-modelled glob matcher, parameterised
by the recursive occurrences. -/
def matchStep (rec : Str → Str → Bool) (s p : Str) : Bool :=
  match p, s with
  | [], [] => true
  | [], _ :: _ => false
  | '*' :: '*' :: ps, s =>
      rec s ps
        || (match ps with
            | '/' :: ps2 => rec s ps2
            | _ => false)
        || (match s with
            | _ :: s2 => rec s2 ('*' :: '*' :: ps)
            | [] => false)
  | '*' :: ps, s =>
      rec s ps
        || (match s with
            | c :: s2 => (c != '/') && rec s2 ('*' :: ps)
            | [] => false)
  | '?' :: ps, c :: s2 => (c != '/') && rec s2 ps
  | '?' :: _, [] => false
  | c :: ps, d :: s2 => (c == d) && rec s2 ps
  | _ :: _, [] => false

/-- Fuel-indexed glob matcher (every step shrinks `s.length + p.length`,
so `s.length + p.length + 1` fuel always suffices). -/
def matchesFuel : Nat → Str → Str → Bool
  | 0, _, _ => false
  | f + 1, s, p => matchStep (matchesFuel f) s p

/-- Modelled from the spec: `matches_pattern` is imported by
`commands/ls.rs` from `utils` but its definition is not among the
sources; per the spec `*` matches zero or more characters within a
single path segment (never `/`), the token `**` matches zero or more
characters across segments (and `**/` may also collapse to nothing, so
`**` can match zero segments), `?` matches exactly one non-`/`
character, and any other character matches only itself. -/
def matches_pattern (s p : Str) : Bool :=
  matchesFuel (s.length + p.length + 1) s p

/-! Listing engine (`commands/ls.rs::list_azure_objects`), modelled as a
pure function of the enumeration the external listing provider
returned. -/

/-- `azure.rs::BlobProperties`. -/
structure BlobProperties where
  content_length : Nat
  last_modified : Str
  content_type : Option Str
deriving DecidableEq

/-- `azure.rs::BlobInfo`. -/
structure BlobInfo where
  name : Str
  properties : BlobProperties
deriving DecidableEq

/-- `azure.rs::BlobItem`: a blob or a (virtual directory) prefix entry. -/
inductive BlobItem where
  | Blob : BlobInfo → BlobItem
  | Prefix : Str → BlobItem
deriving DecidableEq

/-- The name of an entry, as read at each use site in `ls.rs`/`du.rs`. -/
def itemName : BlobItem → Str
  | .Blob b => b.name
  | .Prefix p => p

/-- `name.strip_prefix(pfx).unwrap_or(name)` applied to an optional
base, as in `ls.rs` and `du.rs`. -/
def relName (base : Option Str) (name : Str) : Str :=
  match base with
  | some p => if p.isPrefixOf name then name.drop p.length else name
  | none => name

/-- The wildcard analysis of `ls.rs::list_azure_objects` (lines
163–194): from the optional blob path of the URI, the listing
prefix passed to the provider, the glob pattern (with `*` appended
when it ends in `/`), and the `force_recursive` flag computed from the
pattern before that append. -/
def lsAnalyze (pfx : Option Str) : Option Str × Option Str × Bool :=
  match pfx with
  | none => (none, none, false)
  | some prefix_str =>
    match split_wildcard_path prefix_str with
    | none => (some prefix_str, none, false)
    | some (before_wildcard, wildcard_pattern) =>
        let is_rec := contains_recursive_wildcard wildcard_pattern
          || wildcard_pattern.contains '/'
        let wp := if endsWithChar '/' wildcard_pattern
          then wildcard_pattern ++ ['*'] else wildcard_pattern
        (if before_wildcard = [] then none else some before_wildcard,
         some wp, is_rec)

/-- The delimiter handed to the listing provider (`ls.rs` lines
196–201): absent for recursive enumeration, `"/"` otherwise. -/
def lsDelimiter (recursive force_recursive : Bool) : Option Str :=
  if recursive || force_recursive then none else some ['/']

/-- Set-insertion into the accumulator, modelling the `HashSet` of
unique prefixes in `ls.rs` (membership, not order, is meaningful). -/
def insertUnique (x : Str) (acc : List Str) : List Str :=
  if x ∈ acc then acc else acc ++ [x]

/-- The truncation of an entry to exactly `depth` relative segments
with `/` appended (`segments[..depth].join("/") + "/"` in `ls.rs`). -/
def truncAtDepth (base : Option Str) (depth : Nat) (item : BlobItem) : Str :=
  joinChar '/' ((splitChar '/' (relName base (itemName item))).take depth) ++ ['/']

/-- The loop body of the depth-truncated prefix extraction of `ls.rs`
(lines 225–248): for an enumerated entry with at least `depth` segments
relative to the listing prefix, truncate to `depth` segments, append
`/`, test that truncation against the pattern and collect it if it
matches. -/
def collectStep (base : Option Str) (pat : Str) (depth : Nat)
    (acc : List Str) (item : BlobItem) : List Str :=
  let segs := splitChar '/' (relName base (itemName item))
  if depth ≤ segs.length then
    if matches_pattern (truncAtDepth base depth item) pat then
      insertUnique (truncAtDepth base depth item) acc
    else acc
  else acc

/-- The distinct depth-truncated prefixes over the whole enumeration
(the `unique_prefixes` set of `ls.rs`). -/
def collectDepthPfxs (base : Option Str) (pat : Str) (depth : Nat)
    (blobs : List BlobItem) : List Str :=
  blobs.foldl (collectStep base pat depth) []

/-- Re-join a collected relative prefix with the listing prefix for the
caller-visible name (`ls.rs` lines 251–260). -/
def joinBase (base : Option Str) (s : Str) : Str :=
  match base with
  | some p => p ++ s
  | none => s

/-- The filtering stage of `ls.rs::list_azure_objects` (lines 214–302)
applied to the enumeration `blobs` the provider returned. -/
def lsFilter (blobs : List BlobItem) (base : Option Str)
    (pat? : Option Str) (recursive force_recursive : Bool) : List BlobItem :=
  match pat? with
  | none => blobs
  | some pat =>
    match pattern_depth pat with
    | some depth =>
        if force_recursive && !recursive then
          (collectDepthPfxs base pat depth blobs).map
            (fun x => BlobItem.Prefix (joinBase base x))
        else
          blobs.filter (fun item =>
            matches_pattern (relName base (itemName item)) pat)
    | none =>
        blobs.filter (fun item =>
          matches_pattern (relName base (itemName item)) pat)

/-- The visible-entry computation of `ls.rs::list_azure_objects` for a
given blob path of the URI, caller recursion flag and provider
enumeration. -/
def list_azure_objects_core (pfx : Option Str) (recursive : Bool)
    (blobs : List BlobItem) : List BlobItem :=
  let a := lsAnalyze pfx
  lsFilter blobs a.1 a.2.1 recursive a.2.2

/-! Size aggregation (`commands/du.rs`). -/

/-- `du.rs::calculate_total_size`: sum of `content_length` over blobs;
prefix entries have no size. -/
def calculate_total_size (blobs : List BlobItem) : Nat :=
  (blobs.map (fun item =>
    match item with
    | .Blob b => b.properties.content_length
    | .Prefix _ => 0)).sum

/-- The ancestor-directory key at truncation depth `i`:
`segments[..i].join("/") + "/"`. -/
def dirKey (segs : List Str) (i : Nat) : Str :=
  joinChar '/' (segs.take i) ++ ['/']

/-- The inner loop of `du.rs::calculate_directory_sizes` for one blob:
add its size at every strict ancestor directory of its relative path
(`for i in 1..segments.len()`). -/
def addBlobDirs (rel : Str) (size : Nat) (m : Str → Nat) : Str → Nat :=
  (List.range' 1 ((splitChar '/' rel).length - 1)).foldl
    (fun m i => fun d =>
      if d = dirKey (splitChar '/' rel) i then m d + size else m d) m

/-- `du.rs::calculate_directory_sizes`, with the `HashMap` modelled as
a total function that is `0` outside the inserted keys. -/
def calculate_directory_sizes (blobs : List BlobItem)
    (base : Option Str) : Str → Nat :=
  blobs.foldl (fun m item =>
    match item with
    | .Blob b => addBlobDirs (relName base b.name) b.properties.content_length m
    | .Prefix _ => m) (fun _ => 0)

/-- The flat enumeration of the spec's end-to-end scenario keys
`photos/2024/a.jpg : 100`, `photos/2024/b.jpg : 200`,
`photos/2023/c.jpg : 50`. -/
def demoBlobs : List BlobItem :=
  [ BlobItem.Blob ⟨str "photos/2024/a.jpg", ⟨100, [], none⟩⟩,
    BlobItem.Blob ⟨str "photos/2024/b.jpg", ⟨200, [], none⟩⟩,
    BlobItem.Blob ⟨str "photos/2023/c.jpg", ⟨50, [], none⟩⟩ ]

/-! Lemmas about the string primitives. -/

theorem breakAtChar_eq_none (sep : Char) (s : Str) :
    breakAtChar sep s = none ↔ sep ∉ s := by
  induction s with
  | nil => simp [breakAtChar]
  | cons c cs ih =>
      by_cases hc : c = sep
      · subst hc; simp [breakAtChar]
      · simp [breakAtChar, hc, Option.map_eq_none, ih, Ne.symm hc]

theorem breakAtChar_eq_some (sep : Char) (s a b : Str)
    (h : breakAtChar sep s = some (a, b)) :
    s = a ++ sep :: b ∧ sep ∉ a := by
  induction s generalizing a b with
  | nil => simp [breakAtChar] at h
  | cons c cs ih =>
      by_cases hc : c = sep
      · subst hc
        simp [breakAtChar] at h
        obtain ⟨rfl, rfl⟩ := h
        simp
      · rw [breakAtChar, if_neg hc] at h
        cases hbk : breakAtChar sep cs with
        | none => rw [hbk] at h; simp at h
        | some p =>
            rw [hbk] at h
            simp at h
            obtain ⟨h1, h2⟩ := h
            have hp : breakAtChar sep cs = some (p.1, b) := by
              rw [hbk, ← h2]
            obtain ⟨hs, hna⟩ := ih p.1 b hp
            constructor
            · simp [← h1, hs]
            · simp [← h1, hna, Ne.symm hc]

theorem breakAtChar_append (sep : Char) (a b : Str) (ha : sep ∉ a) :
    breakAtChar sep (a ++ sep :: b) = some (a, b) := by
  induction a with
  | nil => simp [breakAtChar]
  | cons c cs ih =>
      have hc : ¬ c = sep := fun h => ha (by simp [h])
      have ha' : sep ∉ cs := fun h => ha (by simp [h])
      simp [breakAtChar, hc, ih ha']

theorem splitN_length_le (sep : Char) (n : Nat) (s : Str) :
    (splitN sep n s).length ≤ n := by
  induction n generalizing s with
  | zero => simp [splitN]
  | succ n ih =>
      match n with
      | 0 => simp [splitN]
      | m + 1 =>
          show (splitN sep (m + 2) s).length ≤ m + 2
          rw [splitN]
          cases h : breakAtChar sep s with
          | none => simp
          | some p =>
              simpa using Nat.succ_le_succ (ih p.2)

theorem splitN_ne_nil (sep : Char) (n : Nat) (s : Str) (hn : 1 ≤ n) :
    splitN sep n s ≠ [] := by
  match n with
  | 1 => simp [splitN]
  | m + 2 =>
      rw [splitN]
      cases h : breakAtChar sep s <;> simp

theorem splitN_three_no_sep (sep : Char) (a : Str) (ha : sep ∉ a) :
    splitN sep 3 a = [a] := by
  rw [splitN, (breakAtChar_eq_none sep a).mpr ha]

theorem splitN_three_one_sep (sep : Char) (a b : Str)
    (ha : sep ∉ a) (hb : sep ∉ b) :
    splitN sep 3 (a ++ sep :: b) = [a, b] := by
  rw [splitN, breakAtChar_append sep a b ha]
  show a :: splitN sep 2 b = [a, b]
  rw [splitN, (breakAtChar_eq_none sep b).mpr hb]

theorem splitN_three_two_sep (sep : Char) (a b c : Str)
    (ha : sep ∉ a) (hb : sep ∉ b) :
    splitN sep 3 (a ++ sep :: b ++ sep :: c) = [a, b, c] := by
  have : a ++ sep :: b ++ sep :: c = a ++ sep :: (b ++ sep :: c) := by simp
  rw [this, splitN, breakAtChar_append sep a (b ++ sep :: c) ha]
  show a :: splitN sep 2 (b ++ sep :: c) = [a, b, c]
  rw [splitN, breakAtChar_append sep b c hb]
  rfl

theorem isPrefixOf_append (l x : Str) : l.isPrefixOf (l ++ x) = true := by
  induction l with
  | nil => simp [List.isPrefixOf]
  | cons c cs ih => simp [List.isPrefixOf, ih]

theorem drop_length_append (l x : Str) : (l ++ x).drop l.length = x := by
  simp

theorem acct_chars_no_slash (s : Str) (h : is_storage_account_name s = true) :
    '/' ∉ s := by
  intro hmem
  unfold is_storage_account_name at h
  rw [Bool.and_eq_true, Bool.and_eq_true] at h
  have h2 := List.all_eq_true.mp h.2 '/' hmem
  have h3 : isAcctChar '/' = false := by decide
  rw [h3] at h2
  simp at h2

theorem acct_ne_nil (s : Str) (h : is_storage_account_name s = true) :
    s ≠ [] := by
  intro hnil
  subst hnil
  simp [is_storage_account_name] at h

theorem az_isPrefixOf (r : Str) :
    (str "az://").isPrefixOf (str "az://" ++ r) = true :=
  isPrefixOf_append (str "az://") r

theorem drop_five (r : Str) : (str "az://" ++ r).drop 5 = r := by
  have h : (5 : Nat) = (str "az://").length := by decide
  rw [h, drop_length_append]

theorem takeWhile_all (p : Char → Bool) (l : Str)
    (h : ∀ c ∈ l, p c = true) : l.takeWhile p = l := by
  induction l with
  | nil => simp
  | cons c cs ih =>
      rw [List.takeWhile_cons, h c (by simp)]
      rw [ih (fun c hc => h c (by simp [hc]))]
      simp

theorem takeWhile_append_sep (sep : Char) (a b : Str) (ha : sep ∉ a) :
    (a ++ sep :: b).takeWhile (fun c => c != sep) = a := by
  induction a with
  | nil => simp
  | cons c cs ih =>
      have hc : (c != sep) = true := by
        simp only [bne_iff_ne, ne_eq, decide_eq_true_eq]
        exact fun h => ha (by simp [h])
      rw [List.cons_append, List.takeWhile_cons, hc]
      simp only [if_true]
      rw [ih (fun h => ha (by simp [h]))]

theorem splitN_head_takeWhile (r : Str) :
    (splitN '/' 3 r).headD [] = r.takeWhile (fun c => c != '/') := by
  cases hbk : breakAtChar '/' r with
  | none =>
      rw [splitN, hbk]
      have hnr := (breakAtChar_eq_none '/' r).mp hbk
      rw [takeWhile_all _ _ (fun c hc => by
        simp only [bne_iff_ne, ne_eq, decide_eq_true_eq]
        exact fun h => hnr (h ▸ hc))]
      rfl
  | some p =>
      obtain ⟨a, b⟩ := p
      obtain ⟨hs, hna⟩ := breakAtChar_eq_some '/' r a b hbk
      rw [splitN, hbk, hs, takeWhile_append_sep '/' a b hna]
      rfl

/-! Theorems for the claims about `parse_azure_uri` and
`convert_az_uri_to_url`. -/

/-- C2: for an address of the form az://first/second[/rest], the first
segment is treated as the storage account iff it is 3–24 lowercase
ASCII letters/digits, in which case the second segment is the container
and the (unsplit) rest is the path; otherwise the first segment is the
container and everything after it, rejoined with `/`, is the path. -/
theorem C2_two_tier_disambiguation
    (first second rest : Str)
    (h1 : first ≠ []) (h2 : '/' ∉ first) (h3 : '/' ∉ second) :
    (is_storage_account_name first = true ↔
      (3 ≤ first.length ∧ first.length ≤ 24 ∧
        ∀ c ∈ first, ('a' ≤ c ∧ c ≤ 'z') ∨ ('0' ≤ c ∧ c ≤ '9')))
    ∧ parse_azure_uri (str "az://" ++ (first ++ '/' :: second ++ '/' :: rest)) =
        some (if is_storage_account_name first then
                (some first, second, if rest = [] then none else some rest)
              else (none, first, some (second ++ '/' :: rest)))
    ∧ parse_azure_uri (str "az://" ++ (first ++ '/' :: second)) =
        some (if is_storage_account_name first then (some first, second, none)
              else (none, first, if second = [] then none else some second)) := by
  refine ⟨?_, ?_, ?_⟩
  · simp [is_storage_account_name, List.all_eq_true, isAcctChar,
      Bool.and_eq_true, Bool.or_eq_true, decide_eq_true_eq, and_assoc]
  · unfold parse_azure_uri
    rw [az_isPrefixOf, if_pos rfl, drop_five,
      splitN_three_two_sep '/' first second rest h2 h3]
    by_cases hacc : is_storage_account_name first = true <;> simp [h1, hacc]
  · unfold parse_azure_uri
    rw [az_isPrefixOf, if_pos rfl, drop_five,
      splitN_three_one_sep '/' first second h2 h3]
    by_cases hacc : is_storage_account_name first = true <;> simp [h1, hacc]

/-- Witness for C2: the claim's example az://ab/container/x ("ab" is
two characters, failing the 3-char minimum) resolves as legacy
container "ab" with path "container/x". -/
theorem C2_two_tier_disambiguation_witness :
    parse_azure_uri (str "az://ab/container/x") =
      some (none, str "ab", some (str "container/x")) := by
  have h := (C2_two_tier_disambiguation (str "ab") (str "container")
    (str "x") (by decide) (by decide) (by decide)).2.1
  rw [show str "az://ab/container/x" =
      str "az://" ++ (str "ab" ++ '/' :: str "container" ++ '/' :: str "x")
    from by decide] at *
  rw [h]
  decide

/-- C7: a single-segment address whose segment passes the
storage-account test, with or without one trailing slash, resolves to
that account with the empty container sentinel and no path. -/
theorem C7_account_only_sentinel (s : Str)
    (h : is_storage_account_name s = true) :
    parse_azure_uri (str "az://" ++ s) = some (some s, [], none) ∧
    parse_azure_uri (str "az://" ++ s ++ ['/']) = some (some s, [], none) := by
  have hs := acct_chars_no_slash s h
  have hn := acct_ne_nil s h
  constructor
  · unfold parse_azure_uri
    rw [az_isPrefixOf, if_pos rfl, drop_five, splitN_three_no_sep '/' s hs]
    simp [hn, h]
  · have hr : str "az://" ++ s ++ ['/'] = str "az://" ++ (s ++ '/' :: ([] : Str)) := by
      simp
    rw [hr]
    unfold parse_azure_uri
    rw [az_isPrefixOf, if_pos rfl, drop_five,
      splitN_three_one_sep '/' s [] hs (by simp)]
    simp [hn, h]

/-- Witness for C7 at a concrete account name. -/
theorem C7_account_only_sentinel_witness :
    parse_azure_uri (str "az://myaccount") =
      some (some (str "myaccount"), [], none) ∧
    parse_azure_uri (str "az://myaccount/") =
      some (some (str "myaccount"), [], none) := by
  have h := C7_account_only_sentinel (str "myaccount") (by decide)
  refine ⟨?_, ?_⟩
  · rw [show str "az://myaccount" = str "az://" ++ str "myaccount"
      from by decide]
    exact h.1
  · rw [show str "az://myaccount/" = str "az://" ++ str "myaccount" ++ ['/']
      from by decide]
    exact h.2

/-- C8 counterexample: az://abc/def/ is an address whose remainder ends
in a trailing `/` beyond the container position, yet it resolves with
path `None`, not `Some "/"`. -/
theorem C8_trailing_slash_counterexample :
    parse_azure_uri (str "az://abc/def/") =
      some (some (str "abc"), str "def", none) ∧
    Option.map (fun t => t.2.2) (parse_azure_uri (str "az://abc/def/")) ≠
      some (some (str "/")) := by
  decide

/-- C8 amended: the `Some "/"` corner holds exactly for the
doubled-slash remainders: az://account/container// (and the legacy
az://container//) resolve with path `Some "/"`, while a single trailing
slash after the container resolves with path `None`. -/
theorem C8_doubled_slash (first second legacy : Str)
    (hacc : is_storage_account_name first = true)
    (h2 : '/' ∉ second)
    (hl1 : legacy ≠ []) (hl2 : '/' ∉ legacy)
    (hl3 : is_storage_account_name legacy = false) :
    parse_azure_uri (str "az://" ++ (first ++ '/' :: second ++ str "//")) =
      some (some first, second, some (str "/"))
    ∧ parse_azure_uri (str "az://" ++ (first ++ '/' :: second ++ ['/'])) =
      some (some first, second, none)
    ∧ parse_azure_uri (str "az://" ++ (legacy ++ str "//")) =
      some (none, legacy, some (str "/")) := by
  have hs := acct_chars_no_slash first hacc
  have hn := acct_ne_nil first hacc
  refine ⟨?_, ?_, ?_⟩
  · have hr : str "az://" ++ (first ++ '/' :: second ++ str "//") =
        str "az://" ++ (first ++ '/' :: second ++ '/' :: (['/'] : Str)) := by
      simp [str]
    rw [hr]
    unfold parse_azure_uri
    rw [az_isPrefixOf, if_pos rfl, drop_five,
      splitN_three_two_sep '/' first second ['/'] hs h2]
    simp [hn, hacc, show (str "/" : Str) = ['/'] from by decide]
  · have hr : str "az://" ++ (first ++ '/' :: second ++ ['/']) =
        str "az://" ++ (first ++ '/' :: second ++ '/' :: ([] : Str)) := by
      simp
    rw [hr]
    unfold parse_azure_uri
    rw [az_isPrefixOf, if_pos rfl, drop_five,
      splitN_three_two_sep '/' first second [] hs h2]
    simp [hn, hacc]
  · have hr : str "az://" ++ (legacy ++ str "//") =
        str "az://" ++ (legacy ++ '/' :: ([] : Str) ++ '/' :: ([] : Str)) := by
      simp [str]
    rw [hr]
    unfold parse_azure_uri
    rw [az_isPrefixOf, if_pos rfl, drop_five,
      splitN_three_two_sep '/' legacy [] [] hl2 (by simp)]
    simp [hl1, hl3, show (str "/" : Str) = ['/'] from by decide]

/-- Witness for the amended C8 at the claim's example address
az://account/container// and companions. -/
theorem C8_doubled_slash_witness :
    parse_azure_uri (str "az://account/container//") =
      some (some (str "account"), str "container", some (str "/"))
    ∧ parse_azure_uri (str "az://account/container/") =
      some (some (str "account"), str "container", none)
    ∧ parse_azure_uri (str "az://AB//") =
      some (none, str "AB", some (str "/")) := by
  have h := C8_doubled_slash (str "account") (str "container") (str "AB")
    (by decide) (by decide) (by decide) (by decide) (by decide)
  refine ⟨?_, ?_, ?_⟩
  · rw [show str "az://account/container//" =
        str "az://" ++ (str "account" ++ '/' :: str "container" ++ str "//")
      from by decide]
    exact h.1
  · rw [show str "az://account/container/" =
        str "az://" ++ (str "account" ++ '/' :: str "container" ++ ['/'])
      from by decide]
    exact h.2.1
  · rw [show str "az://AB//" = str "az://" ++ (str "AB" ++ str "//")
      from by decide]
    exact h.2.2

theorem parse_none_char (r : Str) :
    parse_azure_uri (str "az://" ++ r) = none ↔
      r.takeWhile (fun c => c != '/') = [] := by
  unfold parse_azure_uri
  rw [az_isPrefixOf, if_pos rfl, drop_five, ← splitN_head_takeWhile]
  have hlen := splitN_length_le '/' 3 r
  have hnn := splitN_ne_nil '/' 3 r (by norm_num)
  rcases hsp : splitN '/' 3 r with _ | ⟨p0, _ | ⟨p1, _ | ⟨p2, tl⟩⟩⟩
  · exact absurd hsp hnn
  · by_cases hp0 : p0 = [] <;>
      by_cases hacc : is_storage_account_name p0 = true <;>
      simp [hp0, hacc]
  · by_cases hp0 : p0 = [] <;>
      by_cases hacc : is_storage_account_name p0 = true <;>
      simp [hp0, hacc]
  · have htl : tl = [] := by
      rw [hsp] at hlen
      simpa using hlen
    subst htl
    by_cases hp0 : p0 = [] <;>
      by_cases hacc : is_storage_account_name p0 = true <;>
      simp [hp0, hacc]

/-- C9: resolve returns the InvalidUri error exactly when the address
does not start with the az:// scheme, or the remainder after stripping
it is empty, or the remainder's first slash-separated segment is empty; any
other input resolves successfully. -/
theorem C9_invalid_uri_iff (uri : Str) :
    parse_azure_uri uri = none ↔
      (str "az://").isPrefixOf uri = false
      ∨ uri.drop 5 = []
      ∨ (uri.drop 5).takeWhile (fun c => c != '/') = [] := by
  by_cases hpfx : (str "az://").isPrefixOf uri = true
  · have hdec : uri = str "az://" ++ uri.drop 5 := by
      obtain ⟨t, ht⟩ := List.isPrefixOf_iff_prefix.mp hpfx
      subst ht
      rw [drop_five]
    rw [hdec, parse_none_char, drop_five]
    simp only [az_isPrefixOf]
    constructor
    · intro h
      right; right; exact h
    · rintro (h | h | h)
      · simp at h
      · rw [h]; simp
      · exact h
  · have hpfx' : (str "az://").isPrefixOf uri = false := by
      cases hb : (str "az://").isPrefixOf uri
      · rfl
      · exact absurd hb hpfx
    unfold parse_azure_uri
    simp [hpfx']

/-- C10: convert_az_uri_to_url never applies the account-name
heuristic: the first segment after az:// is treated as the storage
account unconditionally, az://a/b and az://a/b/c map to
https://a.blob.core.windows.net/b[/c], the error cases are exactly a
missing scheme or fewer than two slash-separated segments after it, and on
a legacy-form address it assigns the first segment differently than
parse_azure_uri does. -/
theorem C10_convert_no_heuristic :
    (∀ uri : Str, convert_az_uri_to_url uri = none ↔
      (str "az://").isPrefixOf uri = false ∨ '/' ∉ uri.drop 5)
    ∧ (∀ a b : Str, '/' ∉ a → '/' ∉ b →
        convert_az_uri_to_url (str "az://" ++ (a ++ '/' :: b)) =
          some (str "https://" ++ a ++ str ".blob.core.windows.net/" ++ b)
        ∧ ∀ c : Str,
          convert_az_uri_to_url (str "az://" ++ (a ++ '/' :: b ++ '/' :: c)) =
            some (str "https://" ++ a ++ str ".blob.core.windows.net/" ++ b ++ '/' :: c))
    ∧ convert_az_uri_to_url (str "az://AB/c") =
        some (str "https://AB.blob.core.windows.net/c")
    ∧ parse_azure_uri (str "az://AB/c") = some (none, str "AB", some (str "c")) := by
  refine ⟨?_, ?_, by decide, by decide⟩
  · intro uri
    by_cases hpfx : (str "az://").isPrefixOf uri = true
    · have hdec : uri = str "az://" ++ uri.drop 5 := by
        obtain ⟨t, ht⟩ := List.isPrefixOf_iff_prefix.mp hpfx
        subst ht
        rw [drop_five]
      rw [hdec]
      unfold convert_az_uri_to_url
      rw [az_isPrefixOf, if_pos rfl, drop_five]
      simp only [az_isPrefixOf, Bool.true_eq_false, false_or]
      cases hbk : breakAtChar '/' (uri.drop 5) with
      | none =>
          have hsplit : splitN '/' 3 (uri.drop 5) = [uri.drop 5] := by
            rw [splitN, hbk]
          rw [hsplit]
          have hnr := (breakAtChar_eq_none '/' _).mp hbk
          simp [hnr]
      | some p =>
          obtain ⟨x, y⟩ := p
          obtain ⟨hs, hna⟩ := breakAtChar_eq_some '/' _ x y hbk
          have hmem : '/' ∈ uri.drop 5 := by
            rw [hs]; simp
          have hsplit : splitN '/' 3 (uri.drop 5) = x :: splitN '/' 2 y := by
            rw [splitN, hbk]
          rw [hsplit]
          cases hbk2 : breakAtChar '/' y with
          | none =>
              have hsplit2 : splitN '/' 2 y = [y] := by
                rw [splitN, hbk2]
              rw [hsplit2]
              simp [hmem]
          | some q =>
              obtain ⟨u, v⟩ := q
              have hsplit2 : splitN '/' 2 y = [u, v] := by
                rw [splitN, hbk2]
                rfl
              rw [hsplit2]
              simp [hmem]
    · have hpfx' : (str "az://").isPrefixOf uri = false := by
        cases hb : (str "az://").isPrefixOf uri
        · rfl
        · exact absurd hb hpfx
      unfold convert_az_uri_to_url
      simp [hpfx']
  · intro a b ha hb
    constructor
    · unfold convert_az_uri_to_url
      rw [az_isPrefixOf, if_pos rfl, drop_five,
        splitN_three_one_sep '/' a b ha hb]
    · intro c
      unfold convert_az_uri_to_url
      rw [az_isPrefixOf, if_pos rfl, drop_five,
        splitN_three_two_sep '/' a b c ha hb]

/-- Witness for C10 at concrete addresses (two- and three-segment
forms, the path segment itself containing a slash). -/
theorem C10_convert_no_heuristic_witness :
    convert_az_uri_to_url (str "az://acct/cont") =
      some (str "https://acct.blob.core.windows.net/cont")
    ∧ convert_az_uri_to_url (str "az://acct/cont/p/q") =
      some (str "https://acct.blob.core.windows.net/cont/p/q") := by
  have h := C10_convert_no_heuristic.2.1 (str "acct") (str "cont")
    (by decide) (by decide)
  constructor
  · rw [show str "az://acct/cont" = str "az://" ++ (str "acct" ++ '/' :: str "cont")
      from by decide]
    rw [h.1]
    decide
  · rw [show str "az://acct/cont/p/q" =
        str "az://" ++ (str "acct" ++ '/' :: str "cont" ++ '/' :: str "p/q")
      from by decide]
    rw [h.2 (str "p/q")]
    decide

/-! Claims about the glob pattern functions. -/

/-- C6 counterexample: the pattern `*/` contains no `**`, yet
`pattern_depth` returns 1 while `"*/".split('/')` has length 2 (the
code counts only non-empty segments). -/
theorem C6_depth_counterexample :
    containsSeq (str "**") (str "*/") = false
    ∧ (splitChar '/' (str "*/")).length = 2
    ∧ pattern_depth (str "*/") = some 1
    ∧ pattern_depth (str "*/") ≠ some ((splitChar '/' (str "*/")).length) := by
  decide

/-- C6 amended: `pattern_depth` is `none` exactly for patterns
containing `**`; otherwise it returns the number of non-empty
`/`-separated segments, which agrees with the full split length
whenever no segment of the pattern is empty. -/
theorem C6_depth_law :
    (∀ p : Str, containsSeq (str "**") p = true → pattern_depth p = none)
    ∧ (∀ p : Str, containsSeq (str "**") p = false →
        pattern_depth p =
          some (((splitChar '/' p).filter (fun s => !s.isEmpty)).length))
    ∧ (∀ p : Str, containsSeq (str "**") p = false →
        (∀ s ∈ splitChar '/' p, s ≠ []) →
        pattern_depth p = some ((splitChar '/' p).length)) := by
  refine ⟨?_, ?_, ?_⟩
  · intro p h
    simp [pattern_depth, h]
  · intro p h
    simp [pattern_depth, h]
  · intro p h hs
    simp only [pattern_depth, h, Bool.false_eq_true, if_false, Option.some.injEq]
    congr 1
    rw [List.filter_eq_self.mpr]
    intro s hsmem
    simpa [List.isEmpty_iff] using hs s hsmem

/-- Witness for the amended C6 at the slash-free two-segment pattern
`a/b`. -/
theorem C6_depth_law_witness :
    pattern_depth (str "a/b") = some ((splitChar '/' (str "a/b")).length) :=
  C6_depth_law.2.2 (str "a/b") (by decide) (by decide)

theorem matchStep_congr (r1 r2 : Str → Str → Bool) (s p : Str)
    (h : ∀ s2 p2 : Str, s2.length + p2.length < s.length + p.length →
      r1 s2 p2 = r2 s2 p2) :
    matchStep r1 s p = matchStep r2 s p := by
  unfold matchStep
  split
  · rfl
  · rfl
  · congr 1
    · congr 1
      · exact h _ _ (by simp only [List.length_cons]; omega)
      · split
        · exact h _ _ (by simp only [List.length_cons]; omega)
        · rfl
    · split
      · exact h _ _ (by simp only [List.length_cons]; omega)
      · rfl
  · congr 1
    · exact h _ _ (by simp only [List.length_cons]; omega)
    · split
      · congr 1
        exact h _ _ (by simp only [List.length_cons]; omega)
      · rfl
  · congr 1
    exact h _ _ (by simp only [List.length_cons]; omega)
  · rfl
  · congr 1
    exact h _ _ (by simp only [List.length_cons]; omega)
  · rfl

theorem matchesFuel_eq (f g : Nat) (s p : Str)
    (hf : s.length + p.length < f) (hg : s.length + p.length < g) :
    matchesFuel f s p = matchesFuel g s p := by
  suffices H : ∀ n f g (s p : Str), s.length + p.length = n → n < f → n < g →
      matchesFuel f s p = matchesFuel g s p from
    H (s.length + p.length) f g s p rfl hf hg
  intro n
  induction n using Nat.strong_induction_on with
  | _ n ih =>
      intro f g s p hn hf hg
      obtain ⟨f2, rfl⟩ : ∃ f2, f = f2 + 1 := ⟨f - 1, by omega⟩
      obtain ⟨g2, rfl⟩ : ∃ g2, g = g2 + 1 := ⟨g - 1, by omega⟩
      show matchStep (matchesFuel f2) s p = matchStep (matchesFuel g2) s p
      apply matchStep_congr
      intro s2 p2 hlt
      exact ih (s2.length + p2.length) (by omega) f2 g2 s2 p2 rfl
        (by omega) (by omega)

/-- The one-step unfolding of `matches_pattern` with the recursive
occurrences again `matches_pattern`. -/
theorem matches_pattern_eq (s p : Str) :
    matches_pattern s p = matchStep matches_pattern s p := by
  show matchStep (matchesFuel (s.length + p.length)) s p = _
  apply matchStep_congr
  intro s2 p2 hlt
  exact matchesFuel_eq _ _ _ _ (by omega) (by omega)

theorem mp_cons_nilpat (c : Char) (s : Str) :
    matches_pattern (c :: s) [] = false := by
  rw [matches_pattern_eq]
  rfl

theorem mp_star_cons (c : Char) (s : Str) :
    matches_pattern (c :: s) ['*'] =
      (matches_pattern (c :: s) [] || ((c != '/') && matches_pattern s ['*'])) := by
  rw [matches_pattern_eq]
  rfl

theorem mp_star_no_slash (s : Str) :
    matches_pattern s ['*'] = true ↔ '/' ∉ s := by
  induction s with
  | nil => simp [show matches_pattern [] ['*'] = true from by decide]
  | cons c s2 ih =>
      rw [mp_star_cons, mp_cons_nilpat]
      simp only [Bool.false_or, Bool.and_eq_true, bne_iff_ne, ne_eq]
      have hcc : (¬ c = '/') ↔ ¬ '/' = c :=
        ⟨fun h he => h he.symm, fun h he => h he.symm⟩
      rw [hcc, ih, List.mem_cons]
      tauto

theorem mp_starstar (s : Str) : matches_pattern s ['*', '*'] = true := by
  induction s with
  | nil => decide
  | cons c s2 ih =>
      rw [matches_pattern_eq]
      show (matches_pattern (c :: s2) [] || false || matches_pattern s2 ['*', '*']) = true
      simp [mp_cons_nilpat, ih]

theorem mp_qmark (c : Char) :
    matches_pattern [c] ['?'] = true ↔ c ≠ '/' := by
  rw [matches_pattern_eq]
  show ((c != '/') && matches_pattern [] []) = true ↔ _
  simp [show matches_pattern [] [] = true from by decide, bne_iff_ne]

theorem mp_literal_exact (p : Str) :
    (∀ c ∈ p, c ≠ '*' ∧ c ≠ '?') →
    ∀ s : Str, (matches_pattern s p = true ↔ s = p) := by
  induction p with
  | nil =>
      intro _ s
      cases s with
      | nil => simp [show matches_pattern [] [] = true from by decide]
      | cons c s2 => simp [mp_cons_nilpat]
  | cons d ps ih =>
      intro hp s
      have hd := hp d (by simp)
      have hps : ∀ c ∈ ps, c ≠ '*' ∧ c ≠ '?' := fun c hc => hp c (by simp [hc])
      have ih2 := ih hps
      cases s with
      | nil =>
          rw [matches_pattern_eq]
          unfold matchStep
          split <;> simp_all
      | cons e s2 =>
          rw [matches_pattern_eq]
          unfold matchStep
          split <;> try simp_all [ih2, beq_iff_eq]
          intro _
          exact eq_comm

/-- C5: the spec-modelled glob matcher satisfies the spec fixtures and
laws: `*` matches exactly the slash-free runs within one segment, `**`
matches anything across segments, `?` matches exactly one non-slash
character, and a wildcard-free pattern matches only itself. -/
theorem C5_glob_matcher_spec :
    matches_pattern (str "a/b.txt") (str "a/*.txt") = true
    ∧ matches_pattern (str "a/b/c.txt") (str "a/*.txt") = false
    ∧ matches_pattern (str "a/b/c.txt") (str "a/**/*.txt") = true
    ∧ matches_pattern (str "a/c.txt") (str "a/**/*.txt") = true
    ∧ (∀ s : Str, matches_pattern s ['*'] = true ↔ '/' ∉ s)
    ∧ (∀ s : Str, matches_pattern s ['*', '*'] = true)
    ∧ (∀ c : Char, matches_pattern [c] ['?'] = true ↔ c ≠ '/')
    ∧ (∀ p : Str, (∀ c ∈ p, c ≠ '*' ∧ c ≠ '?') →
        ∀ s : Str, (matches_pattern s p = true ↔ s = p)) :=
  ⟨by decide, by decide, by decide, by decide, mp_star_no_slash,
    mp_starstar, mp_qmark, mp_literal_exact⟩

/-- Witness for C5 at concrete strings (the wildcard-free law applied
to a literal name). -/
theorem C5_glob_matcher_spec_witness :
    matches_pattern (str "hello.txt") (str "hello.txt") = true :=
  (C5_glob_matcher_spec.2.2.2.2.2.2.2 (str "hello.txt") (by decide)
    (str "hello.txt")).mpr rfl

/-! Claim C3: the enumeration-mode decision. -/

/-- C3: the engine passes no delimiter to the listing provider exactly
when the caller requested recursion, or the extracted glob pattern
contains the recursive marker `**`, or it contains a `/`; in every
other case it passes the one-level delimiter `"/"`.  In particular the
pattern of `photos/**/*.jpg` forces recursive enumeration even on a
non-recursive call. -/
theorem C3_delimiter_choice :
    (∀ (pfx : Option Str) (recursive : Bool),
      lsDelimiter recursive (lsAnalyze pfx).2.2 = none ↔
        (recursive = true
          ∨ ∃ p bw wp, pfx = some p ∧ split_wildcard_path p = some (bw, wp)
              ∧ (contains_recursive_wildcard wp = true ∨ wp.contains '/' = true)))
    ∧ (∀ (pfx : Option Str) (recursive : Bool),
        lsDelimiter recursive (lsAnalyze pfx).2.2 = none
        ∨ lsDelimiter recursive (lsAnalyze pfx).2.2 = some ['/'])
    ∧ lsDelimiter false (lsAnalyze (some (str "photos/**/*.jpg"))).2.2 = none := by
  refine ⟨?_, ?_, by decide⟩
  · intro pfx recursive
    cases pfx with
    | none =>
        cases recursive <;> simp [lsAnalyze, lsDelimiter]
    | some p =>
        cases hsw : split_wildcard_path p with
        | none =>
            cases recursive <;> simp [lsAnalyze, lsDelimiter, hsw]
        | some q =>
            obtain ⟨bw, wp⟩ := q
            cases recursive <;>
              cases hcrw : contains_recursive_wildcard wp <;>
              cases hc : wp.contains '/' <;>
              simp [lsAnalyze, lsDelimiter, hsw, hcrw, hc] <;>
              first
                | exact ⟨bw, wp, ⟨rfl, rfl⟩, Or.inl hcrw⟩
                | exact ⟨fun h => ⟨bw, wp, ⟨rfl, rfl⟩, Or.inr h⟩,
                    fun hex => by
                      obtain ⟨x, y, ⟨rfl, rfl⟩, hcase⟩ := hex
                      cases hcase with
                      | inl hcc => simp [hcrw] at hcc
                      | inr hcc => exact hcc⟩
  · intro pfx recursive
    unfold lsDelimiter
    split
    · left; rfl
    · right; rfl

/-! Claim C1: the hierarchical reconstruction branch. -/

theorem insertUnique_mem (x y : Str) (acc : List Str) :
    y ∈ insertUnique x acc ↔ y ∈ acc ∨ y = x := by
  unfold insertUnique
  by_cases hx : x ∈ acc
  · simp only [hx, if_true]
    exact ⟨Or.inl, fun h => h.elim id (fun he => he ▸ hx)⟩
  · simp [hx]

theorem insertUnique_nodup (x : Str) (acc : List Str) (h : acc.Nodup) :
    (insertUnique x acc).Nodup := by
  unfold insertUnique
  by_cases hx : x ∈ acc
  · simp [hx, h]
  · simp [hx, h, List.nodup_append]

theorem collectStep_eq (base : Option Str) (pat : Str) (depth : Nat)
    (acc : List Str) (item : BlobItem) :
    collectStep base pat depth acc item =
      if depth ≤ (splitChar '/' (relName base (itemName item))).length
          ∧ matches_pattern (truncAtDepth base depth item) pat = true
      then insertUnique (truncAtDepth base depth item) acc
      else acc := by
  unfold collectStep
  by_cases h1 : depth ≤ (splitChar '/' (relName base (itemName item))).length <;>
    by_cases h2 : matches_pattern (truncAtDepth base depth item) pat = true <;>
    simp [h1, h2]

theorem collect_foldl_mem (base : Option Str) (pat : Str) (depth : Nat)
    (blobs : List BlobItem) :
    ∀ (acc : List Str) (x : Str),
      x ∈ blobs.foldl (collectStep base pat depth) acc ↔
        x ∈ acc ∨ ∃ item ∈ blobs,
          (depth ≤ (splitChar '/' (relName base (itemName item))).length
            ∧ matches_pattern (truncAtDepth base depth item) pat = true)
          ∧ x = truncAtDepth base depth item := by
  induction blobs with
  | nil => simp
  | cons it blobs ih =>
      intro acc x
      rw [List.foldl_cons, ih, collectStep_eq]
      by_cases hq : depth ≤ (splitChar '/' (relName base (itemName it))).length
          ∧ matches_pattern (truncAtDepth base depth it) pat = true
      · rw [if_pos hq]
        simp only [insertUnique_mem, List.mem_cons]
        constructor
        · rintro ((hacc | hx) | ⟨item, hmem, hcond, hx⟩)
          · exact Or.inl hacc
          · exact Or.inr ⟨it, Or.inl rfl, hq, hx⟩
          · exact Or.inr ⟨item, Or.inr hmem, hcond, hx⟩
        · rintro (hacc | ⟨item, hmem | hmem, hcond, hx⟩)
          · exact Or.inl (Or.inl hacc)
          · exact Or.inl (Or.inr (hmem ▸ hx))
          · exact Or.inr ⟨item, hmem, hcond, hx⟩
      · rw [if_neg hq]
        simp only [List.mem_cons]
        constructor
        · rintro (hacc | ⟨item, hmem, hcond, hx⟩)
          · exact Or.inl hacc
          · exact Or.inr ⟨item, Or.inr hmem, hcond, hx⟩
        · rintro (hacc | ⟨item, hmem | hmem, hcond, hx⟩)
          · exact Or.inl hacc
          · exact absurd (hmem ▸ hcond) hq
          · exact Or.inr ⟨item, hmem, hcond, hx⟩

theorem collect_foldl_nodup (base : Option Str) (pat : Str) (depth : Nat)
    (blobs : List BlobItem) :
    ∀ acc : List Str, acc.Nodup →
      (blobs.foldl (collectStep base pat depth) acc).Nodup := by
  induction blobs with
  | nil => intro acc h; simpa using h
  | cons it blobs ih =>
      intro acc h
      rw [List.foldl_cons, collectStep_eq]
      by_cases hq : depth ≤ (splitChar '/' (relName base (itemName it))).length
          ∧ matches_pattern (truncAtDepth base depth it) pat = true
      · rw [if_pos hq]
        exact ih _ (insertUnique_nodup _ _ h)
      · rw [if_neg hq]
        exact ih _ h

theorem joinBase_injective (base : Option Str) :
    Function.Injective (joinBase base) := by
  intro a b h
  cases base with
  | none => exact h
  | some p => simpa [joinBase] using h

/-- C1 (amended general law): in the reconstruction branch — finite
pattern depth, recursion forced by the pattern only — the result
contains no blob entries and consists of exactly one synthetic prefix
entry for each distinct value of listing-prefix + depth-truncation + /
over the qualifying enumerated entries. -/
theorem C1_depth_reconstruction (blobs : List BlobItem) (base : Option Str)
    (pat : Str) (depth : Nat) (hd : pattern_depth pat = some depth) :
    (∀ it ∈ lsFilter blobs base (some pat) false true,
        ∃ nm, it = BlobItem.Prefix nm)
    ∧ (∀ nm : Str,
        BlobItem.Prefix nm ∈ lsFilter blobs base (some pat) false true ↔
          ∃ item ∈ blobs,
            depth ≤ (splitChar '/' (relName base (itemName item))).length
            ∧ matches_pattern (truncAtDepth base depth item) pat = true
            ∧ nm = joinBase base (truncAtDepth base depth item))
    ∧ ((lsFilter blobs base (some pat) false true).map itemName).Nodup := by
  have hfil : lsFilter blobs base (some pat) false true =
      (collectDepthPfxs base pat depth blobs).map
        (fun x => BlobItem.Prefix (joinBase base x)) := by
    unfold lsFilter
    simp [hd]
  rw [hfil]
  refine ⟨?_, ?_, ?_⟩
  · intro it hit
    obtain ⟨x, _, hx⟩ := List.mem_map.mp hit
    exact ⟨joinBase base x, hx.symm⟩
  · intro nm
    rw [List.mem_map]
    unfold collectDepthPfxs
    constructor
    · rintro ⟨x, hx, hpx⟩
      rw [collect_foldl_mem] at hx
      rcases hx with hx | ⟨item, hmem, hcond, hx⟩
      · simp at hx
      · exact ⟨item, hmem, hcond.1, hcond.2,
          by rw [← hx]; exact (BlobItem.Prefix.injEq _ _).mp hpx.symm⟩
    · rintro ⟨item, hmem, h1, h2, hnm⟩
      refine ⟨truncAtDepth base depth item, ?_, by rw [hnm]⟩
      rw [collect_foldl_mem]
      exact Or.inr ⟨item, hmem, ⟨h1, h2⟩, rfl⟩
  · have hmap : ((collectDepthPfxs base pat depth blobs).map
        (fun x => BlobItem.Prefix (joinBase base x))).map itemName =
        (collectDepthPfxs base pat depth blobs).map (joinBase base) := by
      rw [List.map_map]
      rfl
    rw [hmap]
    exact ((collect_foldl_nodup base pat depth blobs [] (by simp)).map
      (joinBase_injective base))

/-- C1 counterexample: on the spec's scenario keys with pattern
`photos/*/` (appended to `*/*`, depth 2), the engine returns no entries
at all — not the two synthetic prefixes `photos/2024/` and
`photos/2023/` the claim promises. -/
theorem C1_scenario_counterexample :
    list_azure_objects_core (some (str "photos/*/")) false demoBlobs = []
    ∧ BlobItem.Prefix (str "photos/2024/") ∉
        list_azure_objects_core (some (str "photos/*/")) false demoBlobs
    ∧ BlobItem.Prefix (str "photos/2023/") ∉
        list_azure_objects_core (some (str "photos/*/")) false demoBlobs := by
  decide

/-- Witness for the amended C1: the reconstruction law applied to the
scenario enumeration with the pattern `*/*` of depth 2. -/
theorem C1_depth_reconstruction_witness :
    pattern_depth (str "*/*") = some 2
    ∧ ((∀ it ∈ lsFilter demoBlobs (some (str "photos/")) (some (str "*/*")) false true,
          ∃ nm, it = BlobItem.Prefix nm)
      ∧ (∀ nm : Str,
          BlobItem.Prefix nm ∈ lsFilter demoBlobs (some (str "photos/")) (some (str "*/*")) false true ↔
            ∃ item ∈ demoBlobs,
              2 ≤ (splitChar '/' (relName (some (str "photos/")) (itemName item))).length
              ∧ matches_pattern (truncAtDepth (some (str "photos/")) 2 item) (str "*/*") = true
              ∧ nm = joinBase (some (str "photos/")) (truncAtDepth (some (str "photos/")) 2 item))
      ∧ ((lsFilter demoBlobs (some (str "photos/")) (some (str "*/*")) false true).map itemName).Nodup) :=
  ⟨by decide, C1_depth_reconstruction demoBlobs (some (str "photos/"))
    (str "*/*") 2 (by decide)⟩


/-! Claim C4: lemmas about split and join. -/

theorem splitChar_ne_nil (sep : Char) (s : Str) : splitChar sep s ≠ [] := by
  cases s with
  | nil => simp [splitChar]
  | cons c cs =>
      unfold splitChar
      by_cases hc : c = sep
      · simp [hc]
      · simp only [hc, if_false]
        cases h : splitChar sep cs <;> simp

theorem splitChar_cons_form (sep : Char) (s : Str) :
    ∃ t ts, splitChar sep s = t :: ts := by
  cases h : splitChar sep s with
  | nil => exact absurd h (splitChar_ne_nil sep s)
  | cons t ts => exact ⟨t, ts, rfl⟩

theorem splitChar_append (sep : Char) (a b : Str) :
    splitChar sep (a ++ sep :: b) = splitChar sep a ++ splitChar sep b := by
  induction a with
  | nil => simp [splitChar]
  | cons c cs ih =>
      by_cases hc : c = sep
      · subst hc
        simp [splitChar, ih]
      · obtain ⟨t0, ts0, hcs⟩ := splitChar_cons_form sep cs
        have hcs2 : splitChar sep (cs ++ sep :: b) =
            t0 :: (ts0 ++ splitChar sep b) := by
          rw [ih, hcs]
          rfl
        simp [splitChar, hc, hcs, hcs2]

theorem joinChar_splitChar (sep : Char) (s : Str) :
    joinChar sep (splitChar sep s) = s := by
  induction s with
  | nil => simp [splitChar, joinChar]
  | cons c cs ih =>
      by_cases hc : c = sep
      · subst hc
        obtain ⟨t0, ts0, hcs⟩ := splitChar_cons_form c cs
        rw [hcs] at ih
        simp [splitChar, hcs, joinChar, ih]
      · obtain ⟨t0, ts0, hcs⟩ := splitChar_cons_form sep cs
        rw [hcs] at ih
        cases ts0 with
        | nil =>
            simp [joinChar] at ih
            simp [splitChar, hc, hcs, joinChar, ih]
        | cons t1 ts1 =>
            simp only [joinChar] at ih
            simp [splitChar, hc, hcs, joinChar, ih]

theorem splitChar_parts_no_sep (sep : Char) (s : Str) :
    ∀ part ∈ splitChar sep s, sep ∉ part := by
  induction s with
  | nil => simp [splitChar]
  | cons c cs ih =>
      intro part hpart
      by_cases hc : c = sep
      · subst hc
        rw [splitChar] at hpart
        simp at hpart
        rcases hpart with rfl | hpart
        · simp
        · exact ih part hpart
      · obtain ⟨t0, ts0, hcs⟩ := splitChar_cons_form sep cs
        rw [splitChar] at hpart
        simp only [hc, if_false, hcs, List.mem_cons] at hpart
        rcases hpart with rfl | hpart
        · intro hmem
          rcases List.mem_cons.mp hmem with he | hmem2
          · exact hc he.symm
          · exact ih t0 (by simp [hcs]) hmem2
        · exact ih part (by simp [hcs, hpart])

theorem joinChar_count (sep : Char) (l : List Str)
    (hl : ∀ part ∈ l, sep ∉ part) :
    (joinChar sep l).count sep = l.length - 1 := by
  induction l with
  | nil => simp [joinChar]
  | cons s l ih =>
      cases l with
      | nil =>
          simp [joinChar, List.count_eq_zero.mpr (hl s (by simp))]
      | cons t ts =>
          have hs : sep ∉ s := hl s (by simp)
          have hrec := ih (fun part hp => hl part (by simp [hp]))
          simp only [joinChar] at hrec ⊢
          rw [List.count_append, List.count_cons]
          rw [List.count_eq_zero.mpr hs, hrec]
          simp

theorem joinChar_take_drop (sep : Char) (l : List Str) (i : Nat)
    (h1 : 0 < i) (h2 : i < l.length) :
    joinChar sep l =
      joinChar sep (l.take i) ++ sep :: joinChar sep (l.drop i) := by
  induction l generalizing i with
  | nil => simp at h2
  | cons s l ih =>
      cases l with
      | nil =>
          simp at h2
          omega
      | cons t ts =>
          rcases i with _ | _ | j
          · omega
          · simp [joinChar]
          · have hj1 : 0 < j + 1 := by omega
            have hj2 : j + 1 < (t :: ts).length := by
              simp at h2 ⊢
              omega
            have hrec := ih (j + 1) hj1 hj2
            rw [List.take_succ_cons, List.drop_succ_cons]
            have htk : ∃ u us, (t :: ts).take (j + 1) = u :: us :=
              ⟨t, ts.take j, by simp⟩
            obtain ⟨u, us, hu⟩ := htk
            simp only [joinChar, hrec, hu]
            simp
            rw [← hu, List.take_succ_cons]

theorem endsWithChar_iff (c : Char) (d : Str) :
    endsWithChar c d = true ↔ ∃ t, d = t ++ [c] := by
  unfold endsWithChar
  constructor
  · intro h
    have hne : d ≠ [] := by
      rintro rfl
      simp at h
    refine ⟨d.dropLast, ?_⟩
    have hlast : d.getLast hne = c := by
      rw [List.getLast?_eq_getLast d hne] at h
      simpa using h
    rw [← hlast]
    exact (List.dropLast_append_getLast hne).symm
  · rintro ⟨t, rfl⟩
    simp

theorem addBlobDirs_eval (rel : Str) (size : Nat) (m : Str → Nat) (d : Str) :
    addBlobDirs rel size m d =
      m d + size * ((List.range' 1 ((splitChar '/' rel).length - 1)).countP
        (fun i => decide (d = dirKey (splitChar '/' rel) i))) := by
  unfold addBlobDirs
  generalize splitChar '/' rel = segs
  generalize List.range' 1 (segs.length - 1) = is
  induction is generalizing m with
  | nil => simp
  | cons i is ih =>
      rw [List.foldl_cons, ih]
      by_cases hik : d = dirKey segs i
      · simp only [hik, if_pos rfl, List.countP_cons, decide_eq_true_eq,
          if_true]
        ring
      · simp only [hik, if_neg hik, List.countP_cons, decide_eq_true_eq,
          if_false]
        ring

theorem dirKey_count (segs : List Str) (i : Nat)
    (hparts : ∀ part ∈ segs, '/' ∉ part)
    (h1 : 1 ≤ i) (h2 : i ≤ segs.length) :
    (dirKey segs i).count '/' = i := by
  unfold dirKey
  rw [List.count_append]
  have hsub : ∀ part ∈ segs.take i, '/' ∉ part :=
    fun part hp => hparts part (List.take_subset i segs hp)
  rw [joinChar_count '/' _ hsub]
  have hlen : (segs.take i).length = i := by
    rw [List.length_take]
    omega
  rw [hlen]
  simp
  omega

theorem countP_ancestor (rel t : Str) :
    ((List.range' 1 ((splitChar '/' rel).length - 1)).countP
        (fun i => decide ((t ++ ['/']) = dirKey (splitChar '/' rel) i)))
      = if (t ++ ['/']).isPrefixOf rel then 1 else 0 := by
  have hparts := splitChar_parts_no_sep '/' rel
  by_cases hpre : (t ++ ['/']).isPrefixOf rel = true
  · rw [if_pos hpre]
    obtain ⟨u, hu⟩ := List.isPrefixOf_iff_prefix.mp hpre
    have hrel : rel = t ++ '/' :: u := by
      rw [← hu]
      simp
    have hsplit : splitChar '/' rel = splitChar '/' t ++ splitChar '/' u := by
      rw [hrel, splitChar_append]
    obtain ⟨t0, ts0, ht0⟩ := splitChar_cons_form '/' t
    obtain ⟨u0, us0, hu0⟩ := splitChar_cons_form '/' u
    have hk1 : 1 ≤ (splitChar '/' t).length := by
      rw [ht0]
      simp
    have hlen : (splitChar '/' rel).length =
        (splitChar '/' t).length + (splitChar '/' u).length := by
      rw [hsplit]
      simp
    have hulen : 1 ≤ (splitChar '/' u).length := by
      rw [hu0]
      simp
    have hkey : dirKey (splitChar '/' rel) (splitChar '/' t).length =
        t ++ ['/'] := by
      unfold dirKey
      rw [hsplit, List.take_left, joinChar_splitChar]
    have hmem : (splitChar '/' t).length ∈
        List.range' 1 ((splitChar '/' rel).length - 1) := by
      rw [List.mem_range'_1]
      omega
    rw [List.countP_eq_length_filter]
    have hfeq : (List.range' 1 ((splitChar '/' rel).length - 1)).filter
          (fun i => decide ((t ++ ['/']) = dirKey (splitChar '/' rel) i))
        = (List.range' 1 ((splitChar '/' rel).length - 1)).filter
          (fun i => i == (splitChar '/' t).length) := by
      apply List.filter_congr
      intro i hi
      rw [List.mem_range'_1] at hi
      by_cases hik : i = (splitChar '/' t).length
      · subst hik
        simp [hkey]
      · have hci : (dirKey (splitChar '/' rel) i).count '/' = i :=
          dirKey_count _ i hparts (by omega) (by omega)
        have hck : (t ++ ['/']).count '/' = (splitChar '/' t).length := by
          rw [← hkey]
          exact dirKey_count _ _ hparts (by omega) (by omega)
        have hne : ¬ (t ++ ['/'] = dirKey (splitChar '/' rel) i) := by
          intro heq
          rw [heq, hci] at hck
          exact hik hck
        simp [hne, hik]
    rw [hfeq, ← List.countP_eq_length_filter, ← List.count_eq_countP]
    exact List.count_eq_one_of_mem (List.nodup_range' _ _) hmem
  · rw [if_neg hpre]
    apply List.countP_eq_zero.mpr
    intro i hi
    rw [List.mem_range'_1] at hi
    simp only [decide_eq_true_eq]
    intro heq
    obtain ⟨r0, rs0, hr0⟩ := splitChar_cons_form '/' rel
    have hlen1 : 1 ≤ (splitChar '/' rel).length := by
      rw [hr0]
      simp
    have hid : i < (splitChar '/' rel).length := by omega
    have hjtd := joinChar_take_drop '/' (splitChar '/' rel) i (by omega) hid
    rw [joinChar_splitChar] at hjtd
    unfold dirKey at heq
    have ht : t = joinChar '/' ((splitChar '/' rel).take i) :=
      List.append_cancel_right heq
    apply hpre
    rw [List.isPrefixOf_iff_prefix]
    refine ⟨joinChar '/' ((splitChar '/' rel).drop i), ?_⟩
    rw [← ht] at hjtd
    conv_rhs => rw [hjtd]
    simp

theorem dirSizes_go (base : Option Str) (t : Str) (blobs : List BlobItem) :
    ∀ m : Str → Nat,
      (blobs.foldl (fun m item =>
        match item with
        | .Blob b =>
            addBlobDirs (relName base b.name) b.properties.content_length m
        | .Prefix _ => m) m) (t ++ ['/'])
      = m (t ++ ['/']) + calculate_total_size (blobs.filter (fun item =>
          match item with
          | BlobItem.Blob b => (t ++ ['/']).isPrefixOf (relName base b.name)
          | BlobItem.Prefix _ => false)) := by
  induction blobs with
  | nil =>
      intro m
      simp [calculate_total_size]
  | cons it blobs ih =>
      intro m
      rw [List.foldl_cons]
      cases it with
      | Prefix p =>
          rw [ih]
          simp [List.filter_cons]
      | Blob b =>
          rw [ih]
          show addBlobDirs (relName base b.name) b.properties.content_length m
              (t ++ ['/'])
              + calculate_total_size (blobs.filter (fun item =>
                  match item with
                  | BlobItem.Blob b =>
                      (t ++ ['/']).isPrefixOf (relName base b.name)
                  | BlobItem.Prefix _ => false)) = _
          rw [addBlobDirs_eval, countP_ancestor]
          by_cases hp : (t ++ ['/']).isPrefixOf (relName base b.name) = true
          · rw [if_pos hp]
            simp only [List.filter_cons, hp, if_true, calculate_total_size,
              List.map_cons, List.sum_cons]
            ring
          · rw [if_neg hp]
            simp only [List.filter_cons, hp, Bool.false_eq_true, if_false]
            ring

/-- C4: for every finite enumeration and optional base, the size
aggregator charges each blob to every strict ancestor directory of its
prefix-relative path, prefix entries contribute nothing, and the map
value at any directory key `d` (trailing slash) equals the sum of
`content_length` over the blobs whose relative name starts with `d`. -/
theorem C4_size_aggregation (blobs : List BlobItem) (base : Option Str)
    (d : Str) (hd : endsWithChar '/' d = true) :
    calculate_directory_sizes blobs base d =
      calculate_total_size (blobs.filter (fun item =>
        match item with
        | BlobItem.Blob b => d.isPrefixOf (relName base b.name)
        | BlobItem.Prefix _ => false))
    ∧ (∀ p : Str,
        calculate_directory_sizes (BlobItem.Prefix p :: blobs) base d =
          calculate_directory_sizes blobs base d) := by
  obtain ⟨t, rfl⟩ := (endsWithChar_iff '/' d).mp hd
  refine ⟨?_, fun p => rfl⟩
  unfold calculate_directory_sizes
  rw [dirSizes_go]
  simp

/-- Witness for C4: the spec's du scenario — photos/2024/ totals 300,
photos/2023/ totals 50, photos/ and the grand total are 350. -/
theorem C4_size_aggregation_witness :
    endsWithChar '/' (str "photos/2024/") = true
    ∧ calculate_directory_sizes demoBlobs none (str "photos/2024/") =
        calculate_total_size (demoBlobs.filter (fun item =>
          match item with
          | BlobItem.Blob b =>
              (str "photos/2024/").isPrefixOf (relName none b.name)
          | BlobItem.Prefix _ => false))
    ∧ calculate_directory_sizes demoBlobs none (str "photos/2024/") = 300
    ∧ calculate_directory_sizes demoBlobs none (str "photos/2023/") = 50
    ∧ calculate_directory_sizes demoBlobs none (str "photos/") = 350
    ∧ calculate_total_size demoBlobs = 350 :=
  ⟨by decide,
    (C4_size_aggregation demoBlobs none (str "photos/2024/") (by decide)).1,
    by decide, by decide, by decide, by decide⟩

end Azst
